import Mathlib

/-!
Shallow embedding of the Hyperliquid liquidation-alert bots
(`bot_final_liquidations.py`, `bot_railway.py`, `bot_railway_futures.py`,
`config_railway.py`).

Numeric trade fields (`sz`, `px` and the derived notional `value_usd`) are
modelled as exact rationals; timestamps in milliseconds as integers; the
mutable `processed_hashes` set as an explicit list of strings threaded
through the per-trade loop.  Network fetches are modelled as `Except`
values supplied by the environment.
-/

namespace LiquidationBot

/-- A record of the `recentTrades` payload, as read by the bots:
`time`, optional `hash` (the final bot defaults a missing hash to `""`),
`sz`, `px`, `side`, `users`. -/
structure Trade where
  time : Int
  hash : Option String
  sz : ℚ
  px : ℚ
  side : String
  users : List String
deriving DecidableEq

/-- The liquidation dict built by
`HyperliquidLiquidationsBot.analyze_coin_liquidations`. -/
structure Event where
  coin : String
  sz : ℚ
  px : ℚ
  side : String
  value : ℚ
  time : Int
  hash : String
  users : List String
deriving DecidableEq

/-- Dedup key of a trade: its hash field, defaulting to the empty string
when the field is missing. -/
def hashKey (t : Trade) : String := t.hash.getD ""

/-- Notional of a trade: `value_usd = sz * px`. -/
def tradeValue (t : Trade) : ℚ := t.sz * t.px

/-- Critère 2 of `analyze_coin_liquidations`: per-coin size tier. -/
def sizeTier (coin : String) (sz : ℚ) : Bool :=
  if coin = "BTC" then decide ((2 : ℚ) ≤ sz)
  else if coin = "ETH" then decide ((20 : ℚ) ≤ sz)
  else if coin ∈ (["SOL", "AVAX", "MATIC", "DOT", "LINK"] : List String) then
    decide ((1000 : ℚ) ≤ sz)
  else if coin ∈ (["DOGE", "XRP", "ADA"] : List String) then
    decide ((50000 : ℚ) ≤ sz)
  else decide ((5000 : ℚ) ≤ sz)

/-- Critères 2–4 combined: the `is_liquidation` flag after the size tier,
the `len(users) >= 2` override and the `value_usd >= 100000` override. -/
def liqCriteria (coin : String) (t : Trade) : Bool :=
  sizeTier coin t.sz || decide (2 ≤ t.users.length) ||
    decide ((100000 : ℚ) ≤ tradeValue t)

/-- The liquidation dict appended by `analyze_coin_liquidations`. -/
def mkEvent (coin : String) (t : Trade) : Event :=
  ⟨coin, t.sz, t.px, t.side, tradeValue t, t.time, hashKey t, t.users⟩

/-- One iteration of the `for trade in trades` loop of
`analyze_coin_liquidations`: dedup check, recency check, minimum-value
check, liquidation criteria; on classification the event is emitted and
its hash inserted into `processed_hashes`. -/
def stepTrade (coin : String) (minVal : ℚ) (cutoff : Int) (seen : List String)
    (t : Trade) : Option Event × List String :=
  if hashKey t ∈ seen then (none, seen)
  else if t.time < cutoff then (none, seen)
  else if tradeValue t < minVal then (none, seen)
  else if liqCriteria coin t then (some (mkEvent coin t), hashKey t :: seen)
  else (none, seen)

/-- The whole trade loop of `analyze_coin_liquidations`, threading the
`processed_hashes` state; events are collected in trade order. -/
def processTrades (coin : String) (minVal : ℚ) (cutoff : Int) :
    List Trade → List String → List Event × List String
  | [], seen => ([], seen)
  | t :: ts, seen =>
    match stepTrade coin minVal cutoff seen t with
    | (none, s1) => processTrades coin minVal cutoff ts s1
    | (some e, s1) =>
      let r := processTrades coin minVal cutoff ts s1
      (e :: r.1, r.2)

/-- Model of `analyze_coin_liquidations` with the fetch made explicit: any fetch
error is caught and yields `[]`, leaving the seen set untouched. -/
def analyze_coin_liquidations (coin : String) (minVal : ℚ) (cutoff : Int)
    (fetch : Except Unit (List Trade)) (seen : List String) :
    List Event × List String :=
  match fetch with
  | .error _ => ([], seen)
  | .ok trades => processTrades coin minVal cutoff trades seen

/-- A scan job: the coin polled, the recency cutoff of that scan cycle,
and the outcome of the `recentTrades` fetch. -/
abbrev Job := String × Int × Except Unit (List Trade)

/-- The dispatch loop of `monitor_liquidations` flattened over the whole
process lifetime: each job is analysed in turn, its events are dispatched
in order, and the `processed_hashes` set persists across jobs and scan
cycles. -/
def runScan (minVal : ℚ) : List Job → List String → List Event × List String
  | [], seen => ([], seen)
  | (c, cutoff, fetch) :: jobs, seen =>
    let r1 := analyze_coin_liquidations c minVal cutoff fetch seen
    let r2 := runScan minVal jobs r1.2
    (r1.1 ++ r2.1, r2.2)

/-! Alert formatting, from `send_liquidation_alert` of the final bot (the
futures bot formats the amount and price identically).  Python rounds with
round-half-to-even when printing a representable tie, so the rounding of
the format specifiers is modelled as round-half-to-even on exact
rationals. -/

/-- Round a rational to the nearest integer, ties to the even integer. -/
def roundHalfEven (q : ℚ) : ℤ :=
  if q - ⌊q⌋ < 1/2 then ⌊q⌋
  else if (1 : ℚ)/2 < q - ⌊q⌋ then ⌊q⌋ + 1
  else if ⌊q⌋ % 2 = 0 then ⌊q⌋ else ⌊q⌋ + 1

/-- The format specifier producing a whole number (used for nonnegative
amounts in the bots). -/
def fmt0 (q : ℚ) : String := toString (roundHalfEven q)

/-- The format specifier producing one decimal place. -/
def fmt1 (q : ℚ) : String :=
  let n := roundHalfEven (q * 10)
  toString (n / 10) ++ "." ++ toString (n % 10)

/-- Left-pad a string with zeros up to width `k`. -/
def padZeros (k : ℕ) (s : String) : String :=
  if k ≤ s.length then s else String.mk (List.replicate (k - s.length) '0') ++ s

/-- The format specifier producing four decimal places (used for the
price in the alert message). -/
def fmt4 (q : ℚ) : String :=
  let n := roundHalfEven (q * 10000)
  toString (n / 10000) ++ "." ++ padZeros 4 (toString (n % 10000))

/-- The amount formatting of `send_liquidation_alert`: values of at least
one million are printed with one decimal and an M suffix, values of at
least one thousand with a whole-number K suffix, smaller values as a
whole number. -/
def amountStr (v : ℚ) : String :=
  if (1000000 : ℚ) ≤ v then "$" ++ fmt1 (v / 1000000) ++ "M"
  else if (1000 : ℚ) ≤ v then "$" ++ fmt0 (v / 1000) ++ "K"
  else "$" ++ fmt0 v

/-! Case-insensitive side comparison.  The bots compare the lowercased
side string against alias lists; the railway and futures bots first
uppercase the side when reading it from the dict.  Only ASCII letters
matter for those comparisons, so lowercasing and uppercasing are modelled
as the ASCII case maps. -/

/-- The 26 ASCII letter pairs, uppercase first. -/
def caseTable : List (Char × Char) :=
  [('A', 'a'), ('B', 'b'), ('C', 'c'), ('D', 'd'), ('E', 'e'), ('F', 'f'),
   ('G', 'g'), ('H', 'h'), ('I', 'i'), ('J', 'j'), ('K', 'k'), ('L', 'l'),
   ('M', 'm'), ('N', 'n'), ('O', 'o'), ('P', 'p'), ('Q', 'q'), ('R', 'r'),
   ('S', 's'), ('T', 't'), ('U', 'u'), ('V', 'v'), ('W', 'w'), ('X', 'x'),
   ('Y', 'y'), ('Z', 'z')]

/-- ASCII lowercase of one character. -/
def asciiLowerChar (c : Char) : Char :=
  ((caseTable.find? fun p => p.1 = c).map Prod.snd).getD c

/-- ASCII uppercase of one character. -/
def asciiUpperChar (c : Char) : Char :=
  ((caseTable.find? fun p => p.2 = c).map Prod.fst).getD c

/-- ASCII lowercase of a string, modelling the Python lower call. -/
def asciiLower (s : String) : String := ⟨s.data.map asciiLowerChar⟩

/-- ASCII uppercase of a string, modelling the Python upper call. -/
def asciiUpper (s : String) : String := ⟨s.data.map asciiUpperChar⟩

/-- Side aliases of the final bot: sell, short, s. -/
def sellAliasesFinal : List String := ["sell", "short", "s"]

/-- Side aliases of the railway and futures bots: sell, short. -/
def sellAliases : List String := ["sell", "short"]

/-- Point and direction of the final bot
(`HyperliquidLiquidationsBot.send_liquidation_alert`): a sell-side event
gets a green point and the SHORT label, anything else a red point and the
LONG label. -/
def finalDirection (side : String) : String × String :=
  if asciiLower side ∈ sellAliasesFinal then ("🟢", "SHORT") else ("🔴", "LONG")

/-- Point and direction of the railway bot (`HyperliquidBot.send_liquidation`);
the side string is uppercased when read from the dict, then lowercased for
the comparison. -/
def railwayDirection (side : String) : String × String :=
  if asciiLower (asciiUpper side) ∈ sellAliases then ("🔴", "SHORT")
  else ("🟢", "LONG")

/-- Point and direction of the futures bot
(`HyperliquidFuturesBot.send_liquidation_alert`). -/
def futuresDirection (side : String) : String × String :=
  if asciiLower (asciiUpper side) ∈ sellAliases then ("🟢", "SHORT")
  else ("🔴", "LONG")

/-- The alert message of `HyperliquidLiquidationsBot.send_liquidation_alert`:
confidence marker, point, coin tag, direction, formatted amount and the
price with four decimals. -/
def finalMessage (ev : Event) : String :=
  (if 2 ≤ ev.users.length ∨ (100000 : ℚ) ≤ ev.value then "🚨" else "⚠️") ++
    " " ++ (finalDirection ev.side).1 ++ " #" ++ ev.coin ++ " " ++
    (finalDirection ev.side).2 ++ " " ++ amountStr ev.value ++ " @$" ++
    fmt4 ev.px

/-! The railway bot classifier (`HyperliquidBot.identify_liquidations`)
and its dispatch filter from `monitor_liquidations`. -/

/-- The per-coin significance thresholds of `identify_liquidations`. -/
def is_significant (coin : String) (sz v : ℚ) : Bool :=
  if coin = "BTC" ∨ coin = "ETH" then
    decide ((1 : ℚ)/10 < sz) && decide ((5000 : ℚ) < v)
  else if coin ∈ (["SOL", "AVAX", "ADA", "DOT", "LINK", "UNI", "ATOM",
      "NEAR", "FTM"] : List String) then
    decide ((5 : ℚ) < sz) && decide ((1000 : ℚ) < v)
  else if coin ∈ (["MATIC", "XRP", "LTC", "BCH", "AAVE", "COMP", "MKR",
      "ALGO", "FIL", "VET"] : List String) then
    decide ((10 : ℚ) < sz) && decide ((800 : ℚ) < v)
  else if coin ∈ (["DOGE", "SHIB", "PEPE", "FLOKI", "BONK", "WIF",
      "BOME"] : List String) then
    decide ((1000 : ℚ) < sz) && decide ((500 : ℚ) < v)
  else decide ((20 : ℚ) < sz) && decide ((500 : ℚ) < v)

/-- The liquidation dict built by `identify_liquidations`. -/
structure RailLiq where
  coin : String
  sz : ℚ
  px : ℚ
  side : String
  time : Int
deriving DecidableEq

/-- Model of `HyperliquidBot.identify_liquidations`: keep trades inside the
one-hour window whose size and notional pass the per-coin thresholds.
No minimum-notional check and no dedup happen here. -/
def identify_liquidations (trades : List Trade) (coin : String)
    (oneHourAgo : Int) : List RailLiq :=
  trades.filterMap fun t =>
    if t.time < oneHourAgo then none
    else if is_significant coin t.sz (t.sz * t.px) then
      some ⟨coin, t.sz, t.px, t.side, t.time⟩
    else none

/-- The dispatch filter of the railway `monitor_liquidations` loop: only
liquidations whose notional reaches the configured minimum are sent. -/
def railwayDispatch (trades : List Trade) (coin : String) (oneHourAgo : Int)
    (minVal : ℚ) : List RailLiq :=
  (identify_liquidations trades coin oneHourAgo).filter fun l =>
    decide (minVal ≤ l.sz * l.px)

/-! The futures bot token catalog
(`HyperliquidFuturesBot.get_recent_trades_all_tokens`). -/

/-- The mutable catalog state of the futures bot: the cached token set
and the time of the last refresh. -/
structure CatalogState where
  allTokens : Finset String
  lastTokenUpdate : Int

/-- The hourly refresh of `get_recent_trades_all_tokens`: when more than
an hour has passed and the universe fetch returned a nonempty list, the
cache is extended by set union and the refresh time recorded. -/
def catalogStep (st : CatalogState) (now : Int) (fetch1 : List String) :
    CatalogState :=
  if 3600 < now - st.lastTokenUpdate then
    if fetch1 = [] then st
    else { allTokens := st.allTokens ∪ fetch1.toFinset, lastTokenUpdate := now }
  else st

/-- The empty-cache branch of `get_recent_trades_all_tokens`: when the
cache is empty, a further fetch result is unioned in. -/
def catalogFill (st : CatalogState) (fetch2 : List String) : CatalogState :=
  if st.allTokens = ∅ then
    { st with allTokens := st.allTokens ∪ fetch2.toFinset }
  else st

/-- Model of `get_recent_trades_all_tokens`: hourly refresh, then the empty-cache
fill, then the cached set is returned. -/
def get_recent_trades_all_tokens (st : CatalogState) (now : Int)
    (fetch1 fetch2 : List String) : CatalogState × Finset String :=
  (catalogFill (catalogStep st now fetch1) fetch2,
    (catalogFill (catalogStep st now fetch1) fetch2).allTokens)

/-- A whole sequence of catalog refreshes, threading the state. -/
def foldCatalog (st : CatalogState)
    (ins : List (Int × List String × List String)) : CatalogState :=
  ins.foldl (fun s i => (get_recent_trades_all_tokens s i.1 i.2.1 i.2.2).1) st

/-! The coin catalog of the final bot
(`HyperliquidLiquidationsBot.get_all_coins`). -/

/-- The hardcoded fallback list of `get_all_coins`. -/
def FALLBACK_COINS : List String := ["BTC", "ETH", "SOL", "AVAX", "DOGE"]

/-- Model of `get_all_coins`: on a failed fetch, a falsy response or a response
without a universe key the fallback list is returned; otherwise the
names present in the universe are collected and truncated to 50. -/
def get_all_coins : Option (List (Option String)) → List String
  | none => FALLBACK_COINS
  | some univ => (univ.filterMap id).take 50

/-- The BTC scenario trade of the spec: size 3.0, price 60000, side Sell,
no counterparties, recent. -/
def btcScenarioTrade : Trade := ⟨1, some "h1", 3, 60000, "Sell", []⟩

/-- A hashless DOGE-style railway trade used as counterexample input:
size 2000, price one half, notional 1000. -/
def railCounterTrade : Trade := ⟨0, none, 2000, 1/2, "B", []⟩

/-! Helper lemmas about rounding and formatting. -/

theorem roundHalfEven_intCast (n : ℤ) : roundHalfEven (n : ℚ) = n := by
  unfold roundHalfEven
  rw [Int.floor_intCast]
  rw [if_pos]
  norm_num

theorem roundHalfEven_of_near (q : ℚ) (n : ℤ) (h1 : (n : ℚ) ≤ q)
    (h2 : q - n < 1/2) : roundHalfEven q = n := by
  have hf : ⌊q⌋ = n := by
    rw [Int.floor_eq_iff]
    constructor
    · exact h1
    · linarith
  unfold roundHalfEven
  rw [hf, if_pos h2]

theorem abs_sub_roundHalfEven (q : ℚ) : |q - roundHalfEven q| ≤ 1/2 := by
  have h1 : (⌊q⌋ : ℚ) ≤ q := Int.floor_le q
  have h2 : q < ⌊q⌋ + 1 := Int.lt_floor_add_one q
  unfold roundHalfEven
  split_ifs with ha hb hc <;> rw [abs_le] <;> constructor <;> push_cast <;>
    linarith

theorem fmt0_intCast (n : ℤ) : fmt0 (n : ℚ) = toString n := by
  unfold fmt0
  rw [roundHalfEven_intCast]

theorem fmt1_eq (q : ℚ) (n : ℤ) (h : q * 10 = (n : ℚ)) :
    fmt1 q = toString (n / 10) ++ "." ++ toString (n % 10) := by
  unfold fmt1
  rw [h, roundHalfEven_intCast]

theorem fmt4_eq (q : ℚ) (n : ℤ) (h : q * 10000 = (n : ℚ)) :
    fmt4 q = toString (n / 10000) ++ "." ++ padZeros 4 (toString (n % 10000)) := by
  unfold fmt4
  rw [h, roundHalfEven_intCast]

theorem amountStr_M (v : ℚ) (n : ℤ) (h1 : (1000000 : ℚ) ≤ v)
    (h2 : v / 1000000 * 10 = (n : ℚ)) :
    amountStr v = "$" ++ (toString (n / 10) ++ "." ++ toString (n % 10)) ++ "M" := by
  unfold amountStr
  rw [if_pos h1, fmt1_eq _ n h2]

theorem amountStr_K (v : ℚ) (n : ℤ) (h1 : ¬ (1000000 : ℚ) ≤ v)
    (h2 : (1000 : ℚ) ≤ v) (h3 : v / 1000 = (n : ℚ)) :
    amountStr v = "$" ++ toString n ++ "K" := by
  unfold amountStr
  rw [if_neg h1, if_pos h2, h3, fmt0_intCast]

theorem amountStr_small (v : ℚ) (n : ℤ) (h1 : ¬ (1000000 : ℚ) ≤ v)
    (h2 : ¬ (1000 : ℚ) ≤ v) (h3 : v = (n : ℚ)) :
    amountStr v = "$" ++ toString n := by
  unfold amountStr
  rw [if_neg h1, if_neg h2, h3, fmt0_intCast]

theorem asciiLowerChar_asciiUpperChar (c : Char) :
    asciiLowerChar (asciiUpperChar c) = asciiLowerChar c := by
  unfold asciiUpperChar
  cases hfind : caseTable.find? fun p => p.2 = c with
  | none => simp
  | some p =>
    have hmem : p ∈ caseTable := List.mem_of_find?_eq_some hfind
    have hpc : p.2 = c := by simpa using List.find?_some hfind
    simp only [Option.map_some', Option.getD_some]
    rw [← hpc]
    fin_cases hmem <;> decide

theorem asciiLower_asciiUpper (s : String) :
    asciiLower (asciiUpper s) = asciiLower s := by
  have h : ∀ l : List Char,
      (l.map asciiUpperChar).map asciiLowerChar = l.map asciiLowerChar := by
    intro l
    induction l with
    | nil => rfl
    | cons a l ih => simp only [List.map_cons, asciiLowerChar_asciiUpperChar, ih]
  exact congrArg String.mk (h s.data)

/-! Helper lemmas about the classifier loop and the seen set. -/

theorem stepTrade_cases (coin : String) (minVal : ℚ) (cutoff : Int)
    (seen : List String) (t : Trade) :
    stepTrade coin minVal cutoff seen t = (none, seen) ∨
      (hashKey t ∉ seen ∧
        stepTrade coin minVal cutoff seen t =
          (some (mkEvent coin t), hashKey t :: seen)) := by
  unfold stepTrade
  split_ifs with h1 h2 h3 h4
  · exact Or.inl rfl
  · exact Or.inl rfl
  · exact Or.inl rfl
  · exact Or.inr ⟨h1, rfl⟩
  · exact Or.inl rfl

theorem processTrades_spec (coin : String) (minVal : ℚ) (cutoff : Int) :
    ∀ (ts : List Trade) (seen : List String),
      (∀ h ∈ seen, h ∈ (processTrades coin minVal cutoff ts seen).2) ∧
      (∀ e ∈ (processTrades coin minVal cutoff ts seen).1,
        e.hash ∈ (processTrades coin minVal cutoff ts seen).2 ∧ e.hash ∉ seen) ∧
      ((processTrades coin minVal cutoff ts seen).1.map Event.hash).Nodup := by
  intro ts
  induction ts with
  | nil =>
    intro seen
    refine ⟨fun h hh => hh, ?_, ?_⟩
    · intro e he
      simp [processTrades] at he
    · simp [processTrades]
  | cons t ts ih =>
    intro seen
    rcases stepTrade_cases coin minVal cutoff seen t with hstep | ⟨hnot, hstep⟩
    · have heq : processTrades coin minVal cutoff (t :: ts) seen =
          processTrades coin minVal cutoff ts seen := by
        conv_lhs => rw [processTrades]
        rw [hstep]
      rw [heq]
      exact ih seen
    · have heq : processTrades coin minVal cutoff (t :: ts) seen =
          (mkEvent coin t ::
              (processTrades coin minVal cutoff ts (hashKey t :: seen)).1,
            (processTrades coin minVal cutoff ts (hashKey t :: seen)).2) := by
        conv_lhs => rw [processTrades]
        rw [hstep]
      obtain ⟨ih1, ih2, ih3⟩ := ih (hashKey t :: seen)
      rw [heq]
      refine ⟨?_, ?_, ?_⟩
      · intro h hh
        exact ih1 h (List.mem_cons_of_mem _ hh)
      · intro e he
        rcases List.mem_cons.mp he with rfl | he'
        · exact ⟨ih1 _ (List.mem_cons_self _ _), hnot⟩
        · obtain ⟨hin, hnotin⟩ := ih2 e he'
          exact ⟨hin, fun hc => hnotin (List.mem_cons_of_mem _ hc)⟩
      · simp only [List.map_cons, List.nodup_cons]
        refine ⟨?_, ih3⟩
        intro hc
        obtain ⟨e, he, hhe⟩ := List.mem_map.mp hc
        obtain ⟨_, hnotin⟩ := ih2 e he
        exact hnotin (hhe ▸ List.mem_cons_self _ _)

theorem analyze_spec (coin : String) (minVal : ℚ) (cutoff : Int)
    (fetch : Except Unit (List Trade)) (seen : List String) :
    (∀ h ∈ seen, h ∈ (analyze_coin_liquidations coin minVal cutoff fetch seen).2) ∧
      (∀ e ∈ (analyze_coin_liquidations coin minVal cutoff fetch seen).1,
        e.hash ∈ (analyze_coin_liquidations coin minVal cutoff fetch seen).2 ∧
          e.hash ∉ seen) ∧
      ((analyze_coin_liquidations coin minVal cutoff fetch seen).1.map
        Event.hash).Nodup := by
  cases fetch with
  | error err =>
    refine ⟨fun h hh => hh, ?_, ?_⟩
    · intro e he
      simp [analyze_coin_liquidations] at he
    · simp [analyze_coin_liquidations]
  | ok trades => exact processTrades_spec coin minVal cutoff trades seen

theorem runScan_spec (minVal : ℚ) :
    ∀ (jobs : List Job) (seen : List String),
      (∀ h ∈ seen, h ∈ (runScan minVal jobs seen).2) ∧
      (∀ e ∈ (runScan minVal jobs seen).1,
        e.hash ∈ (runScan minVal jobs seen).2 ∧ e.hash ∉ seen) ∧
      ((runScan minVal jobs seen).1.map Event.hash).Nodup := by
  intro jobs
  induction jobs with
  | nil =>
    intro seen
    refine ⟨fun h hh => hh, ?_, ?_⟩
    · intro e he
      simp [runScan] at he
    · simp [runScan]
  | cons j jobs ih =>
    intro seen
    obtain ⟨c, cutoff, fetch⟩ := j
    have heq : runScan minVal ((c, cutoff, fetch) :: jobs) seen =
        ((analyze_coin_liquidations c minVal cutoff fetch seen).1 ++
            (runScan minVal jobs
              (analyze_coin_liquidations c minVal cutoff fetch seen).2).1,
          (runScan minVal jobs
            (analyze_coin_liquidations c minVal cutoff fetch seen).2).2) := rfl
    obtain ⟨a1, a2, a3⟩ := analyze_spec c minVal cutoff fetch seen
    obtain ⟨b1, b2, b3⟩ :=
      ih (analyze_coin_liquidations c minVal cutoff fetch seen).2
    rw [heq]
    refine ⟨?_, ?_, ?_⟩
    · intro h hh
      exact b1 h (a1 h hh)
    · intro e he
      rcases List.mem_append.mp he with h1 | h2
      · obtain ⟨hin, hnot⟩ := a2 e h1
        exact ⟨b1 _ hin, hnot⟩
      · obtain ⟨hin, hnot⟩ := b2 e h2
        exact ⟨hin, fun hc => hnot (a1 _ hc)⟩
    · rw [List.map_append]
      refine List.Nodup.append a3 b3 ?_
      intro x hx1 hx2
      obtain ⟨e1, he1, rfl⟩ := List.mem_map.mp hx1
      obtain ⟨e2, he2, hh2⟩ := List.mem_map.mp hx2
      obtain ⟨hin1, _⟩ := a2 e1 he1
      obtain ⟨_, hnot2⟩ := b2 e2 he2
      exact hnot2 (hh2 ▸ hin1)

theorem runScan_cons (minVal : ℚ) (c : String) (cutoff : Int)
    (fetch : Except Unit (List Trade)) (jobs : List Job) (seen : List String) :
    runScan minVal ((c, cutoff, fetch) :: jobs) seen =
      ((analyze_coin_liquidations c minVal cutoff fetch seen).1 ++
          (runScan minVal jobs
            (analyze_coin_liquidations c minVal cutoff fetch seen).2).1,
        (runScan minVal jobs
          (analyze_coin_liquidations c minVal cutoff fetch seen).2).2) := rfl

/-- C1: across the whole process lifetime, at most one alert is dispatched
per trade identifier: in any scan history, whatever the threshold, the job
sequence and the starting seen set, the dispatched event list never
contains two events with the same dedup hash. -/
theorem claim_C1_at_most_one_alert_per_id (minVal : ℚ) (jobs : List Job)
    (seen : List String) :
    ((runScan minVal jobs seen).1.map Event.hash).Nodup :=
  (runScan_spec minVal jobs seen).2.2

/-- C3: a trade that is not a duplicate, passes the recency check and the
minimum-notional floor, and has at least two counterparties is always
classified as a liquidation, regardless of the size-tier outcome. -/
theorem claim_C3_users_override (coin : String) (minVal : ℚ) (cutoff : Int)
    (seen : List String) (t : Trade) (hseen : hashKey t ∉ seen)
    (hrecent : ¬ t.time < cutoff) (hmin : ¬ tradeValue t < minVal)
    (husers : 2 ≤ t.users.length) :
    (stepTrade coin minVal cutoff seen t).1 = some (mkEvent coin t) := by
  unfold stepTrade
  rw [if_neg hseen, if_neg hrecent, if_neg hmin, if_pos]
  unfold liqCriteria
  simp [husers]

/-- Witness for C3: a recent BTC trade of size 1 (below the 2.0 BTC size
tier), price 60000 and two counterparties is classified. -/
theorem claim_C3_witness :
    (stepTrade "BTC" 50000 0 []
        ⟨1, some "w3", 1, 60000, "B", ["u1", "u2"]⟩).1 =
      some (mkEvent "BTC" ⟨1, some "w3", 1, 60000, "B", ["u1", "u2"]⟩) :=
  claim_C3_users_override "BTC" 50000 0 [] _ (by decide) (by decide)
    (by norm_num [tradeValue]) (by decide)

/-- C7: a fetch failure for one symbol is isolated: the failing symbol
contributes zero events and leaves the seen set untouched, and the whole
scan behaves exactly as if that symbol had returned an empty trade list,
so every other symbol of the batch is processed unchanged. -/
theorem claim_C7_fetch_failure_isolated (minVal : ℚ) (c : String)
    (cutoff : Int) (err : Unit) (seen : List String) (pre post : List Job) :
    analyze_coin_liquidations c minVal cutoff (Except.error err) seen =
      ([], seen) ∧
    runScan minVal (pre ++ (c, cutoff, Except.error err) :: post) seen =
      runScan minVal (pre ++ (c, cutoff, Except.ok []) :: post) seen := by
  refine ⟨rfl, ?_⟩
  induction pre generalizing seen with
  | nil => rfl
  | cons j pre ih =>
    obtain ⟨c', cutoff', fetch'⟩ := j
    rw [List.cons_append, List.cons_append, runScan_cons, runScan_cons, ih]

/-- C10: deduplication is keyed on the raw hash with the empty string as
default: classifying any hashless trade inserts the empty string into the
seen set; once the empty string is in the seen set, every hashless trade
is skipped, and no event with an empty hash is ever dispatched again, on
any symbol, for the rest of the run. -/
theorem claim_C10_hashless_dedup (minVal : ℚ) :
    (∀ (coin : String) (cutoff : Int) (seen : List String) (t : Trade)
        (e : Event) (s : List String), t.hash = none →
        stepTrade coin minVal cutoff seen t = (some e, s) →
        e.hash = "" ∧ s = "" :: seen) ∧
    (∀ (coin : String) (cutoff : Int) (seen : List String) (t : Trade),
        hashKey t = "" → "" ∈ seen →
        stepTrade coin minVal cutoff seen t = (none, seen)) ∧
    (∀ (jobs : List Job) (seen : List String), "" ∈ seen →
        ∀ e ∈ (runScan minVal jobs seen).1, e.hash ≠ "") := by
  refine ⟨?_, ?_, ?_⟩
  · intro coin cutoff seen t e s hnone hstep
    have hkey : hashKey t = "" := by rw [hashKey, hnone]; rfl
    rcases stepTrade_cases coin minVal cutoff seen t with hc | ⟨_, hc⟩
    · rw [hstep] at hc
      exact absurd (congrArg Prod.fst hc) (by simp)
    · rw [hstep] at hc
      have he : some e = some (mkEvent coin t) := congrArg Prod.fst hc
      have hs : s = hashKey t :: seen := congrArg Prod.snd hc
      have he' : e = mkEvent coin t := Option.some.inj he
      refine ⟨?_, ?_⟩
      · rw [he']
        exact hkey
      · rw [hs, hkey]
  · intro coin cutoff seen t hkey hmem
    unfold stepTrade
    rw [if_pos (hkey ▸ hmem)]
  · intro jobs seen hmem e he
    intro hc
    exact ((runScan_spec minVal jobs seen).2.1 e he).2 (hc ▸ hmem)

/-- Witness for C10: a classified hashless DOGE trade carries the empty
dedup key, and with the empty string already seen a hashless trade is
skipped. -/
theorem claim_C10_witness :
    (mkEvent "DOGE" ⟨1, none, 100000, 1, "B", []⟩).hash = "" ∧
    stepTrade "ETH" 50000 0 [""] ⟨1, none, 5, 1, "B", []⟩ = (none, [""]) := by
  constructor
  · have hstep : stepTrade "DOGE" 50000 0 [] ⟨1, none, 100000, 1, "B", []⟩ =
        (some (mkEvent "DOGE" ⟨1, none, 100000, 1, "B", []⟩), [""]) := by
      unfold stepTrade
      have hsz : sizeTier "DOGE" (100000 : ℚ) = true := by decide
      rw [if_neg (by decide), if_neg (by decide),
        if_neg (by norm_num [tradeValue]), if_pos (by simp [liqCriteria, hsz])]
      rfl
    exact ((claim_C10_hashless_dedup 50000).1 "DOGE" 0 [] _ _ _ rfl hstep).1
  · exact (claim_C10_hashless_dedup 50000).2.1 "ETH" 0 [""] _ rfl (by decide)

/-- C2 counterexample: the railway classifier emits an event for a DOGE
trade of size 2000 at price one half, although its notional of 1000 is
strictly below the configured minimum of 50000. -/
theorem claim_C2_counterexample :
    identify_liquidations [railCounterTrade] "DOGE" (-1) =
      [⟨"DOGE", 2000, 1/2, "B", 0⟩] ∧
    railCounterTrade.sz * railCounterTrade.px < 50000 := by
  constructor
  · have hsig : is_significant "DOGE" (2000 : ℚ) (2000 * (1/2)) = true := by
      have hv : (2000 : ℚ) * (1/2) = 1000 := by norm_num
      unfold is_significant
      rw [if_neg (by decide), if_neg (by decide), if_neg (by decide),
        if_pos (by decide), hv]
      decide
    unfold identify_liquidations railCounterTrade
    rw [List.filterMap_cons]
    rw [if_neg (by decide), if_pos hsig]
    rfl
  · norm_num [railCounterTrade]

/-- C2 amended: in the final-liquidations classifier a trade whose
notional is below the configured minimum is never classified, regardless
of size, side or counterparty count; in the railway variant the classifier
itself can emit such events, but the dispatch filter of the monitor loop
only sends liquidations whose notional reaches the minimum. -/
theorem claim_C2_min_notional_floor (minVal : ℚ) :
    (∀ (coin : String) (cutoff : Int) (seen : List String) (t : Trade),
        tradeValue t < minVal →
        (stepTrade coin minVal cutoff seen t).1 = none) ∧
    (∀ (trades : List Trade) (coin : String) (oneHourAgo : Int) (l : RailLiq),
        l ∈ railwayDispatch trades coin oneHourAgo minVal →
        minVal ≤ l.sz * l.px) := by
  constructor
  · intro coin cutoff seen t hlow
    unfold stepTrade
    by_cases h1 : hashKey t ∈ seen
    · rw [if_pos h1]
    · rw [if_neg h1]
      by_cases h2 : t.time < cutoff
      · rw [if_pos h2]
      · rw [if_neg h2, if_pos hlow]
  · intro trades coin oneHourAgo l hl
    unfold railwayDispatch at hl
    have := List.of_mem_filter hl
    exact of_decide_eq_true this

/-- Witness for C2: the sub-threshold DOGE trade is dropped by the final
classifier, and a dispatched railway liquidation of notional 200000 indeed
reaches the 50000 minimum. -/
theorem claim_C2_witness :
    (stepTrade "DOGE" 50000 0 [] railCounterTrade).1 = none ∧
    (50000 : ℚ) ≤ (200000 : ℚ) * 1 := by
  constructor
  · exact (claim_C2_min_notional_floor 50000).1 "DOGE" 0 [] railCounterTrade
      (by norm_num [tradeValue, railCounterTrade])
  · have hmem : (⟨"DOGE", 200000, 1, "B", 0⟩ : RailLiq) ∈
        railwayDispatch [⟨0, none, 200000, 1, "B", []⟩] "DOGE" (-1) 50000 := by
      have hsig : is_significant "DOGE" (200000 : ℚ) ((200000 : ℚ) * 1) = true := by
        have hv : (200000 : ℚ) * 1 = 200000 := by norm_num
        unfold is_significant
        rw [if_neg (by decide), if_neg (by decide), if_neg (by decide),
          if_pos (by decide), hv]
        decide
      unfold railwayDispatch identify_liquidations
      rw [List.filterMap_cons, if_neg (by decide), if_pos hsig]
      refine List.mem_filter.mpr ⟨List.mem_cons_self _ _, ?_⟩
      have hv : ((⟨"DOGE", 200000, 1, "B", 0⟩ : RailLiq).sz *
          (⟨"DOGE", 200000, 1, "B", 0⟩ : RailLiq).px) = 200000 := by norm_num
      rw [decide_eq_true_eq, hv]
      norm_num
    exact (claim_C2_min_notional_floor 50000).2 _ "DOGE" (-1) _ hmem

/-- C4: the amount string of the alert uses an M suffix with one decimal
from one million up, a K suffix rounded to the nearest whole thousand from
one thousand up, and the raw integer below one thousand; in particular
1500000, 45000 and 900 format as claimed. -/
theorem claim_C4_magnitude_formatting :
    amountStr 1500000 = "$1.5M" ∧ amountStr 45000 = "$45K" ∧
    amountStr 900 = "$900" ∧
    (∀ n : ℕ, n < 1000 → amountStr n = "$" ++ toString n) ∧
    (∀ v : ℚ, (1000 : ℚ) ≤ v → ¬ (1000000 : ℚ) ≤ v →
        amountStr v = "$" ++ toString (roundHalfEven (v / 1000)) ++ "K" ∧
        |v / 1000 - (roundHalfEven (v / 1000) : ℚ)| ≤ 1/2) ∧
    (∀ v : ℚ, (1000000 : ℚ) ≤ v →
        amountStr v = "$" ++ fmt1 (v / 1000000) ++ "M" ∧
        |v / 1000000 * 10 - (roundHalfEven (v / 1000000 * 10) : ℚ)| ≤ 1/2) := by
  refine ⟨?_, ?_, ?_, ?_, ?_, ?_⟩
  · rw [amountStr_M 1500000 15 (by norm_num) (by norm_num)]
    decide
  · rw [amountStr_K 45000 45 (by norm_num) (by norm_num) (by norm_num)]
    decide
  · rw [amountStr_small 900 900 (by norm_num) (by norm_num) (by norm_num)]
    decide
  · intro n hn
    rw [amountStr_small (n : ℚ) (n : ℤ) (by exact_mod_cast by omega)
      (by exact_mod_cast by omega) (by push_cast; ring)]
    norm_cast
  · intro v h1 h2
    refine ⟨?_, abs_sub_roundHalfEven _⟩
    unfold amountStr
    rw [if_neg h2, if_pos h1]
    rfl
  · intro v h1
    refine ⟨?_, abs_sub_roundHalfEven _⟩
    unfold amountStr
    rw [if_pos h1]

/-- Witness for C4: the three branch facts applied at 7, 45000 and
1500000. -/
theorem claim_C4_witness :
    amountStr ((7 : ℕ) : ℚ) = "$" ++ toString (7 : ℕ) ∧
    amountStr 45000 = "$" ++ toString (roundHalfEven ((45000 : ℚ) / 1000)) ++ "K" ∧
    amountStr 1500000 = "$" ++ fmt1 ((1500000 : ℚ) / 1000000) ++ "M" := by
  refine ⟨?_, ?_, ?_⟩
  · exact claim_C4_magnitude_formatting.2.2.2.1 7 (by norm_num)
  · exact (claim_C4_magnitude_formatting.2.2.2.2.1 45000 (by norm_num)
      (by norm_num)).1
  · exact (claim_C4_magnitude_formatting.2.2.2.2.2 1500000 (by norm_num)).1

/-- C5: the BTC scenario trade (size 3, price 60000, side Sell, no
counterparties, notional 180000, recent) with minimum 50000 is classified,
the event keeps side Sell, and the alert carries the short-direction
label, the magnitude string and the four-decimal price of the claim. -/
theorem claim_C5_btc_scenario :
    stepTrade "BTC" 50000 0 [] btcScenarioTrade =
      (some (mkEvent "BTC" btcScenarioTrade), ["h1"]) ∧
    (mkEvent "BTC" btcScenarioTrade).side = "Sell" ∧
    (finalDirection "Sell").2 = "SHORT" ∧
    finalMessage (mkEvent "BTC" btcScenarioTrade) =
      "🚨 🟢 #BTC SHORT $180K @$60000.0000" := by
  refine ⟨?_, rfl, by decide, ?_⟩
  · unfold stepTrade
    have hsz : sizeTier "BTC" (3 : ℚ) = true := by decide
    rw [if_neg (by decide), if_neg (by decide),
      if_neg (by norm_num [tradeValue, btcScenarioTrade]),
      if_pos (by simp [liqCriteria, hsz, btcScenarioTrade])]
    rfl
  · have hval : (mkEvent "BTC" btcScenarioTrade).value = 180000 := by
      norm_num [mkEvent, tradeValue, btcScenarioTrade]
    have hdir : finalDirection "Sell" = ("🟢", "SHORT") := by decide
    unfold finalMessage
    rw [hval]
    have hside : (mkEvent "BTC" btcScenarioTrade).side = "Sell" := rfl
    have husers : (mkEvent "BTC" btcScenarioTrade).users.length = 0 := rfl
    have hpx : (mkEvent "BTC" btcScenarioTrade).px = 60000 := rfl
    have hcoin : (mkEvent "BTC" btcScenarioTrade).coin = "BTC" := rfl
    rw [hside, husers, hpx, hcoin, hdir,
      if_pos (Or.inr (by norm_num : (100000 : ℚ) ≤ 180000)),
      amountStr_K 180000 180 (by norm_num) (by norm_num) (by norm_num),
      fmt4_eq 60000 600000000 (by norm_num)]
    decide

/-- C6: across all three variants, the direction label is the short label
exactly when the lowercased side is one of the sell aliases of that
variant, and every other side gets the long label. -/
theorem claim_C6_side_to_direction (side : String) :
    ((finalDirection side).2 = "SHORT" ↔ asciiLower side ∈ sellAliasesFinal) ∧
    ((finalDirection side).2 = "SHORT" ∨ (finalDirection side).2 = "LONG") ∧
    ((railwayDirection side).2 = "SHORT" ↔ asciiLower side ∈ sellAliases) ∧
    ((railwayDirection side).2 = "SHORT" ∨ (railwayDirection side).2 = "LONG") ∧
    ((futuresDirection side).2 = "SHORT" ↔ asciiLower side ∈ sellAliases) ∧
    ((futuresDirection side).2 = "SHORT" ∨ (futuresDirection side).2 = "LONG") := by
  unfold finalDirection railwayDirection futuresDirection
  rw [asciiLower_asciiUpper]
  by_cases h1 : asciiLower side ∈ sellAliasesFinal <;>
    by_cases h2 : asciiLower side ∈ sellAliases <;>
      simp [h1, h2]

theorem catalogStep_subset (st : CatalogState) (now : Int)
    (fetch1 : List String) :
    st.allTokens ⊆ (catalogStep st now fetch1).allTokens := by
  unfold catalogStep
  split_ifs <;> first
    | exact Finset.Subset.refl _
    | exact Finset.subset_union_left

theorem catalogFill_subset (st : CatalogState) (fetch2 : List String) :
    st.allTokens ⊆ (catalogFill st fetch2).allTokens := by
  unfold catalogFill
  split_ifs <;> first
    | exact Finset.Subset.refl _
    | exact Finset.subset_union_left

/-- C8: the cached token catalog of the futures bot only grows: one
refresh call only extends the cached set, and over any refresh history
every earlier cached set is contained in every later one. -/
theorem claim_C8_catalog_only_grows :
    (∀ (st : CatalogState) (now : Int) (f1 f2 : List String),
        st.allTokens ⊆ (get_recent_trades_all_tokens st now f1 f2).1.allTokens) ∧
    (∀ (st : CatalogState) (ins1 ins2 : List (Int × List String × List String)),
        (foldCatalog st ins1).allTokens ⊆
          (foldCatalog st (ins1 ++ ins2)).allTokens) := by
  have hstep : ∀ (st : CatalogState) (now : Int) (f1 f2 : List String),
      st.allTokens ⊆ (get_recent_trades_all_tokens st now f1 f2).1.allTokens := by
    intro st now f1 f2
    exact (catalogStep_subset st now f1).trans
      (catalogFill_subset (catalogStep st now f1) f2)
  refine ⟨hstep, ?_⟩
  have hfold : ∀ (ins : List (Int × List String × List String))
      (st : CatalogState), st.allTokens ⊆ (foldCatalog st ins).allTokens := by
    intro ins
    induction ins with
    | nil => intro st; exact Finset.Subset.refl _
    | cons i ins ih =>
      intro st
      exact (hstep st i.1 i.2.1 i.2.2).trans
        (ih (get_recent_trades_all_tokens st i.1 i.2.1 i.2.2).1)
  intro st ins1 ins2
  have happ : foldCatalog st (ins1 ++ ins2) =
      foldCatalog (foldCatalog st ins1) ins2 := by
    unfold foldCatalog
    exact List.foldl_append _ _ _ _
  rw [happ]
  exact hfold ins2 (foldCatalog st ins1)

/-- C9 counterexample: with a successful fetch whose universe is empty or
carries no names, the final bot returns an empty coin list instead of the
fallback; the futures bot, starting from an empty cache with empty
fetches, ends the call with an empty cached set. -/
theorem claim_C9_counterexample :
    get_all_coins (some []) = [] ∧ get_all_coins (some [none]) = [] ∧
    (get_recent_trades_all_tokens ⟨∅, 0⟩ 10000 [] []).1.allTokens = ∅ := by
  refine ⟨rfl, rfl, ?_⟩
  unfold get_recent_trades_all_tokens catalogFill catalogStep
  rw [if_pos (by decide), if_pos rfl]
  simp

/-- C9 amended: the final bot returns its non-empty hardcoded fallback
when the metadata fetch fails, the response is falsy or it has no
universe key; a successful response with a universe yields the first 50
names, which is non-empty whenever at least one asset carries a name (but
empty when none does). -/
theorem claim_C9_fallback_on_failure :
    get_all_coins none = FALLBACK_COINS ∧ FALLBACK_COINS ≠ [] ∧
    (∀ u : List (Option String), u.filterMap id ≠ [] →
        get_all_coins (some u) ≠ []) := by
  refine ⟨rfl, by decide, ?_⟩
  intro u hu
  show (u.filterMap id).take 50 ≠ []
  cases h : u.filterMap id with
  | nil => exact absurd h hu
  | cons a l => simp

/-- Witness for C9: a universe containing one named asset yields a
non-empty coin list. -/
theorem claim_C9_witness : get_all_coins (some [some "BTC"]) ≠ [] :=
  claim_C9_fallback_on_failure.2.2 [some "BTC"] (by decide)

end LiquidationBot
